import Mathlib

/-!
Shallow embedding of the chained hash table from `hashmap.h` /
`src/unnamed/part_000` (template `HashMap<K, V, F>` with per-bucket
collision chains of `HashMapElement` / `Element` nodes).

Modelling conventions:
* a collision chain (a singly linked list of heap nodes reached from a
  bucket slot) is a `List (Entry K V)`; the null pointer is `[]`;
* the bucket array `_table` (length `_size`) is a `List` of chains and
  `_size` is kept as a separate field, exactly as in the source; the
  agreement `table.length = size` that every constructor establishes is
  carried as a hypothesis where a proof needs it;
* the hash functor `F` is a parameter `hashFn : K → Nat`; the private
  `hash` member is `hashFn key % size`;
* the per-bucket `std::mutex` objects have no effect on the
  single-threaded functional behaviour the claims describe and are not
  represented;
* `throw std::out_of_range` is modelled by an `Option`/failure result:
  `none` is the thrown exception, and since the source throws before any
  write to the chain, the caller's table is unchanged in that case.
-/

set_option autoImplicit false
set_option linter.unusedSectionVars false
set_option linter.unusedVariables false

namespace Hashmap

/-- One `HashMapElement` / `Element` node: a stored key-value pair
(the `next` pointer becomes the tail of the enclosing list). -/
structure Entry (K V : Type) where
  key : K
  value : V
deriving DecidableEq, Repr

/-- A bucket's collision chain: the list of entries reachable from the
bucket slot through `next` pointers. -/
abbrev Chain (K V : Type) := List (Entry K V)

/-- The `HashMap` object: `_size` (bucket count) and `_table`
(the bucket array). -/
structure HashMap (K V : Type) where
  size : Nat
  table : List (Chain K V)
deriving Repr

variable {K V : Type} [DecidableEq K]

/-- The default constructor `HashMap() : _size(0), _table(nullptr)`. -/
def HashMap.default : HashMap K V := ⟨0, []⟩

/-- `allocateTableAndMutexes(size)` as used by the sized constructor
`HashMap(size_t size)`: `size` buckets, each set to `nullptr`. -/
def mkHashMap (capacity : Nat) : HashMap K V :=
  ⟨capacity, List.replicate capacity []⟩

variable (hashFn : K → Nat)

/-- The private member `hash(key) = hashFunctor(key) % _size`. -/
def hashIdx (m : HashMap K V) (key : K) : Nat :=
  hashFn key % m.size

/-- Reading `_table[idx]`. -/
def getBucket (m : HashMap K V) (idx : Nat) : Chain K V :=
  m.table.getD idx []

/-- The scan loop shared by `exists` and `lookup`:
`while (tmp != nullptr && tmp->getKey() != key) tmp = tmp->next;`
returning the found entry's value. -/
def lookupChain (key : K) : Chain K V → Option V
  | [] => none
  | e :: rest => if e.key = key then some e.value else lookupChain key rest

/-- `HashMap::exists(key)`: scan the chain at `hash(key)`, report whether
the scan stopped on a match. -/
def hmExists (m : HashMap K V) (key : K) : Bool :=
  (lookupChain key (getBucket m (hashIdx hashFn m key))).isSome

/-- `HashMap::lookup(key)`: scan the chain at `hash(key)`; `none` models
`throw std::out_of_range("HashMap: key doesn't exists")`. -/
def hmLookup (m : HashMap K V) (key : K) : Option V :=
  lookupChain key (getBucket m (hashIdx hashFn m key))

/-- The body of `HashMap::insert` on one chain. `[]` is the
`_table[idx] == nullptr` case (new sole head); otherwise the loop
`while (tmp->next != nullptr && tmp->getKey() != key)` stops on a key
match (overwrite in place via `setValue`) or at the last node
(append `tmp->next = new HashMapElement(key, value)`). -/
def insertChain (key : K) (value : V) : Chain K V → Chain K V
  | [] => [⟨key, value⟩]
  | e :: rest =>
    if e.key = key then { e with value := value } :: rest
    else
      match rest with
      | [] => [e, ⟨key, value⟩]
      | _ :: _ => e :: insertChain key value rest

/-- `HashMap::insert(key, value)`: rewrite the chain at `hash(key)`. -/
def hmInsert (m : HashMap K V) (key : K) (value : V) : HashMap K V :=
  { m with
    table := m.table.set (hashIdx hashFn m key)
      (insertChain key value (getBucket m (hashIdx hashFn m key))) }

/-- The body of `HashMap::remove` on one chain: scan tracking `prev`;
`none` is the not-found throw; on a match unlink the node (head case:
the bucket points to `tmp->next`; otherwise `prev->next = tmp->next`). -/
def removeChain (key : K) : Chain K V → Option (Chain K V)
  | [] => none
  | e :: rest =>
    if e.key = key then some rest
    else
      match removeChain key rest with
      | none => none
      | some rest' => some (e :: rest')

/-- `HashMap::remove(key)`: `none` models the `out_of_range` throw (the
source throws before any write, so the table is unchanged then);
`some m'` is the table after the unlink. -/
def hmRemove (m : HashMap K V) (key : K) : Option (HashMap K V) :=
  match removeChain key (getBucket m (hashIdx hashFn m key)) with
  | none => none
  | some c => some { m with table := m.table.set (hashIdx hashFn m key) c }

/-- Total number of stored entries (the sum of all chain lengths);
used to state that `remove` frees exactly one entry. -/
def numEntries (m : HashMap K V) : Nat :=
  (m.table.map List.length).sum

/-- Inserting a list of key-value pairs in order ("inserting N keys"). -/
def insertList (m : HashMap K V) (es : List (Entry K V)) : HashMap K V :=
  es.foldl (fun a e => hmInsert hashFn a e.key e.value) m

/-- The move constructor `HashMap(HashMap &&other)`: steal `_table`,
`_mutexes`, `_size`; reset `other` to `_size = 0`, null arrays. First
component: the newly constructed table; second: `other` afterwards.
The move assignment `operator=(HashMap &&)` (after destroying the
destination's own state) performs the same transfer. -/
def hmMove (other : HashMap K V) : HashMap K V × HashMap K V :=
  (⟨other.size, other.table⟩, ⟨0, []⟩)

/-- The copy constructor `HashMap(HashMap &other)`:
`allocateTableAndMutexes(other._size)` then, for each source bucket in
ascending index order, insert every entry of its chain into the new
table. -/
def hmCopy (other : HashMap K V) : HashMap K V :=
  other.table.foldl
    (fun acc c => c.foldl (fun a e => hmInsert hashFn a e.key e.value) acc)
    (mkHashMap other.size)

/-- `HashMap::resize(newSize)`: drain each old bucket in ascending order,
re-hashing every entry with `hashFunctor(key) % newSize` and placing it
into the new bucket array by the same find-or-append rule as `insert`
(the inline loop in the source is `insert`'s body with `newTable` and
`newIdx`); finally install the new array and `_size = newSize`.

The source allocates `new Element *[newSize]` and immediately tests
`newTable[newIdx] == nullptr`, so the fresh array is modelled as
all-null (`List.replicate newSize []`), which is what that test
presupposes; the source in fact never initializes the new bucket slots
(nor constructs the new mutexes) — see the C3 analysis. -/
def hmResize (m : HashMap K V) (newSize : Nat) : HashMap K V :=
  m.table.foldl
    (fun acc c => c.foldl (fun a e => hmInsert hashFn a e.key e.value) acc)
    ⟨newSize, List.replicate newSize []⟩

/-- A mutating operation of the public API used to phrase "key `k` is
not subsequently removed or overwritten". -/
inductive Op (K V : Type) where
  | ins (key : K) (value : V)
  | del (key : K)

/-- Whether an operation touches key `k` (inserts over it or removes it). -/
def Op.touches (k : K) : Op K V → Prop
  | .ins key _ => key = k
  | .del key => key = k

instance (k : K) : (op : Op K V) → Decidable (op.touches k)
  | .ins key _ => inferInstanceAs (Decidable (key = k))
  | .del key => inferInstanceAs (Decidable (key = k))

/-- Running one operation; a `remove` of an absent key throws and leaves
the caller's table as it was. -/
def applyOp (m : HashMap K V) : Op K V → HashMap K V
  | .ins key value => hmInsert hashFn m key value
  | .del key => (hmRemove hashFn m key).getD m

/-- Running a sequence of operations. -/
def applyOps (m : HashMap K V) (ops : List (Op K V)) : HashMap K V :=
  ops.foldl (applyOp hashFn) m

/-- The keys stored in one chain. -/
def chainKeys (c : Chain K V) : List K := c.map (·.key)

/-- Well-formedness of a table state, as established by the sized
constructor and maintained by every operation: the bucket array has
`_size` slots, the bucket count is positive (the source divides by
`_size`), every entry sits in the bucket its hash selects, and no chain
holds two entries with the same key. -/
def WF (m : HashMap K V) : Prop :=
  m.table.length = m.size ∧ 0 < m.size ∧
  ∀ i < m.size,
    (∀ e ∈ getBucket m i, hashFn e.key % m.size = i) ∧
    (chainKeys (getBucket m i)).Nodup

instance (m : HashMap K V) : Decidable (WF hashFn m) := by
  unfold WF
  infer_instance

/-- Table states reachable from a sized construction with positive
capacity through the mutating API. -/
inductive Reachable : HashMap K V → Prop where
  | init (capacity : Nat) (h : 0 < capacity) : Reachable (mkHashMap capacity)
  | insert {m : HashMap K V} (key : K) (value : V) :
      Reachable m → Reachable (hmInsert hashFn m key value)
  | remove {m m' : HashMap K V} (key : K) :
      Reachable m → hmRemove hashFn m key = some m' → Reachable m'
  | resize {m : HashMap K V} (newSize : Nat) (h : 0 < newSize) :
      Reachable m → Reachable (hmResize hashFn m newSize)

/-!
The traversal cursor. `HashMapIter` of `src/unnamed/part_000` holds
`_curr` (pointer to the current node) and `_idx`; the current node and
everything after it in its chain is the suffix list `curr` (`[]` is
`nullptr`).
-/

/-- Iterator state: `_idx` and `_curr` (as the chain suffix headed by
the current node). -/
structure Iter (K V : Type) where
  idx : Nat
  curr : Chain K V
deriving Repr, DecidableEq

/-- The bucket-skipping scan `while (idx < size && table[idx] == nullptr)
idx++` followed by `curr = (idx < size) ? table[idx] : nullptr`, shared
by `first()` and the bucket-advance arm of `next()`. -/
def scanFrom (m : HashMap K V) (idx : Nat) : Iter K V :=
  if idx < m.size then
    match getBucket m idx with
    | [] => scanFrom m (idx + 1)
    | e :: rest => ⟨idx, e :: rest⟩
  else ⟨idx, []⟩
termination_by m.size - idx
decreasing_by omega

/-- `HashMapIter::first()`: scan from index 0. -/
def iterFirst (m : HashMap K V) : Iter K V := scanFrom m 0

/-- `HashMap::begin()` of `src/hashmap.h`: it computes the first
non-empty bucket's head for `_current` but constructs
`Iterator(this, first)`, whose `_index` member stays at its default 0 —
the scanned index `i` is discarded. -/
def iterBegin (m : HashMap K V) : Iter K V := ⟨0, (scanFrom m 0).curr⟩

/-- `HashMapIter::next()` / `Iterator::next()`: no-op at end; follow
`_curr->next` inside a chain; at a chain's last node resume the bucket
scan from `_idx + 1`. -/
def iterNext (m : HashMap K V) (it : Iter K V) : Iter K V :=
  match it.curr with
  | [] => it
  | _ :: rest =>
    match rest with
    | [] => scanFrom m (it.idx + 1)
    | _ :: _ => ⟨it.idx, rest⟩

/-- `HashMapIter::isEnd()` / equality with `end()` (null `_curr`). -/
def iterIsEnd (it : Iter K V) : Bool := it.curr.isEmpty

/-- The entries a traversal loop
`while (!it.isEnd()) { visit(it.getCurrent()); it.next(); }` visits from
cursor state `it`, in visit order. The two recursive arms are the two
arms of `next()`: follow the chain, or rescan buckets from `_idx + 1`. -/
def iterToList (m : HashMap K V) (it : Iter K V) : List (Entry K V) :=
  match it with
  | ⟨_, []⟩ => []
  | ⟨idx, e :: rest⟩ =>
    match rest with
    | [] => e :: iterToList m (scanFrom m (idx + 1))
    | f :: rest' => e :: iterToList m ⟨idx, f :: rest'⟩
termination_by (m.size - it.idx, it.curr.length)
decreasing_by
· have key : ∀ fuel j, m.size - j ≤ fuel →
      j ≤ (scanFrom m j).idx ∧
      ((scanFrom m j).curr ≠ [] → (scanFrom m j).idx < m.size) := by
    intro fuel
    induction fuel with
    | zero =>
      intro j hj
      rw [scanFrom.eq_def]
      rw [if_neg (by omega)]
      simp
    | succ n ih =>
      intro j hj
      rw [scanFrom.eq_def]
      by_cases h : j < m.size
      · rw [if_pos h]
        cases hb : getBucket m j with
        | nil =>
          have hnext := ih (j + 1) (by omega)
          exact ⟨Nat.le_trans (Nat.le_succ j) hnext.1, hnext.2⟩
        | cons e r => exact ⟨Nat.le_refl j, fun _ => h⟩
      · rw [if_neg h]
        simp
  obtain ⟨h1, h2⟩ := key m.size (idx + 1) (by omega)
  simp only [List.length_cons, List.length_nil]
  rcases Nat.lt_or_ge (m.size - (scanFrom m (idx + 1)).idx) (m.size - idx) with hlt | hge
  · exact Prod.Lex.left _ _ hlt
  · have hcurr : (scanFrom m (idx + 1)).curr = [] := by
      by_contra hne
      have := h2 hne
      omega
    have heq : m.size - (scanFrom m (idx + 1)).idx = m.size - idx := by omega
    rw [heq, hcurr]
    exact Prod.Lex.right _ (by simp)
· exact Prod.Lex.right _ (by simp)

/-!  Chain-level lemmas. -/

theorem insertChain_cons_eq {k : K} (v : V) {e : Entry K V} (he : e.key = k)
    (rest : Chain K V) :
    insertChain k v (e :: rest) = { e with value := v } :: rest := by
  simp [insertChain, he]

theorem insertChain_singleton_ne {k : K} (v : V) {e : Entry K V} (he : e.key ≠ k) :
    insertChain k v [e] = [e, ⟨k, v⟩] := by
  simp [insertChain, he]

theorem insertChain_cons_cons_ne {k : K} (v : V) {e : Entry K V} (he : e.key ≠ k)
    (f : Entry K V) (rest : Chain K V) :
    insertChain k v (e :: f :: rest) = e :: insertChain k v (f :: rest) := by
  conv_lhs => rw [insertChain]
  simp [he]

theorem removeChain_cons_eq {k : K} {e : Entry K V} (he : e.key = k) (rest : Chain K V) :
    removeChain k (e :: rest) = some rest := by
  simp [removeChain, he]

theorem removeChain_cons_ne {k : K} {e : Entry K V} (he : e.key ≠ k) (rest : Chain K V) :
    removeChain k (e :: rest) = (removeChain k rest).map (e :: ·) := by
  rw [removeChain]
  simp only [if_neg he]
  cases removeChain k rest <;> simp

theorem lookupChain_eq_none_iff (k : K) (c : Chain K V) :
    lookupChain k c = none ↔ ∀ e ∈ c, e.key ≠ k := by
  induction c with
  | nil => simp [lookupChain]
  | cons e rest ih =>
    by_cases h : e.key = k
    · simp [lookupChain, h]
    · simp [lookupChain, h, ih]

theorem lookupChain_append (k : K) (c₁ c₂ : Chain K V) :
    lookupChain k (c₁ ++ c₂) =
      match lookupChain k c₁ with
      | some v => some v
      | none => lookupChain k c₂ := by
  induction c₁ with
  | nil => simp [lookupChain]
  | cons e rest ih =>
    by_cases h : e.key = k
    · simp [lookupChain, h]
    · simp [lookupChain, h, ih]

theorem lookupChain_insertChain_self (k : K) (v : V) (c : Chain K V) :
    lookupChain k (insertChain k v c) = some v := by
  induction c with
  | nil => simp [insertChain, lookupChain]
  | cons e rest ih =>
    by_cases h : e.key = k
    · rw [insertChain_cons_eq v h]
      simp [lookupChain, h]
    · cases rest with
      | nil =>
        rw [insertChain_singleton_ne v h]
        simp [lookupChain, h]
      | cons f rest' =>
        rw [insertChain_cons_cons_ne v h]
        simpa [lookupChain, h] using ih

theorem lookupChain_insertChain_ne {k k' : K} (h : k' ≠ k) (v : V) (c : Chain K V) :
    lookupChain k' (insertChain k v c) = lookupChain k' c := by
  induction c with
  | nil => simp [insertChain, lookupChain, Ne.symm h]
  | cons e rest ih =>
    by_cases he : e.key = k
    · have hne : e.key ≠ k' := by rw [he]; exact Ne.symm h
      rw [insertChain_cons_eq v he]
      simp [lookupChain, hne]
    · cases rest with
      | nil =>
        rw [insertChain_singleton_ne v he]
        simp [lookupChain, Ne.symm h]
      | cons f rest' =>
        rw [insertChain_cons_cons_ne v he]
        by_cases he' : e.key = k'
        · simp [lookupChain, he']
        · simpa [lookupChain, he'] using ih

theorem insertChain_of_not_mem {k : K} (v : V) {c : Chain K V}
    (h : ∀ e ∈ c, e.key ≠ k) : insertChain k v c = c ++ [⟨k, v⟩] := by
  induction c with
  | nil => simp [insertChain]
  | cons e rest ih =>
    have he : e.key ≠ k := h e (by simp)
    cases rest with
    | nil => simp [insertChain_singleton_ne v he]
    | cons f rest' =>
      have hrest := ih (fun e' he' => h e' (by simp [he']))
      rw [insertChain_cons_cons_ne v he, hrest]
      simp

theorem length_insertChain_of_mem {k : K} (v : V) {c : Chain K V}
    (h : k ∈ chainKeys c) : (insertChain k v c).length = c.length := by
  induction c with
  | nil => simp [chainKeys] at h
  | cons e rest ih =>
    by_cases he : e.key = k
    · rw [insertChain_cons_eq v he]
      simp
    · have hr : k ∈ chainKeys rest := by
        simp [chainKeys] at h ⊢
        rcases h with h | h
        · exact absurd h.symm (by simpa using he)
        · exact h
      cases rest with
      | nil => simp [chainKeys] at hr
      | cons f rest' =>
        rw [insertChain_cons_cons_ne v he]
        simpa using ih hr

theorem keys_insertChain_of_mem {k : K} (v : V) {c : Chain K V}
    (h : k ∈ chainKeys c) : chainKeys (insertChain k v c) = chainKeys c := by
  induction c with
  | nil => simp [chainKeys] at h
  | cons e rest ih =>
    by_cases he : e.key = k
    · rw [insertChain_cons_eq v he]
      simp [chainKeys]
    · have hr : k ∈ chainKeys rest := by
        simp [chainKeys] at h ⊢
        rcases h with h | h
        · exact absurd h.symm (by simpa using he)
        · exact h
      cases rest with
      | nil => simp [chainKeys] at hr
      | cons f rest' =>
        rw [insertChain_cons_cons_ne v he]
        simp only [chainKeys, List.map_cons] at ih ⊢
        rw [ih hr]

theorem keys_insertChain_of_not_mem {k : K} (v : V) {c : Chain K V}
    (h : k ∉ chainKeys c) : chainKeys (insertChain k v c) = chainKeys c ++ [k] := by
  have h' : ∀ e ∈ c, e.key ≠ k := by
    intro e he hk
    exact h (by simp [chainKeys]; exact ⟨e, he, hk⟩)
  rw [insertChain_of_not_mem v h']
  simp [chainKeys]

theorem nodup_keys_insertChain (k : K) (v : V) {c : Chain K V}
    (h : (chainKeys c).Nodup) : (chainKeys (insertChain k v c)).Nodup := by
  by_cases hm : k ∈ chainKeys c
  · rw [keys_insertChain_of_mem v hm]; exact h
  · rw [keys_insertChain_of_not_mem v hm]
    simp [List.nodup_append, h, hm]

theorem mem_keys_insertChain {k k' : K} {v : V} {c : Chain K V}
    (h : k' ∈ chainKeys (insertChain k v c)) : k' = k ∨ k' ∈ chainKeys c := by
  by_cases hm : k ∈ chainKeys c
  · rw [keys_insertChain_of_mem v hm] at h; exact Or.inr h
  · rw [keys_insertChain_of_not_mem v hm] at h
    rcases List.mem_append.mp h with h | h
    · exact Or.inr h
    · exact Or.inl (by simpa using h)

theorem removeChain_none_iff (k : K) (c : Chain K V) :
    removeChain k c = none ↔ lookupChain k c = none := by
  induction c with
  | nil => simp [removeChain, lookupChain]
  | cons e rest ih =>
    by_cases h : e.key = k
    · simp [removeChain, lookupChain, h]
    · simp only [removeChain, lookupChain, if_neg h]
      cases hr : removeChain k rest with
      | none => simpa [hr] using ih
      | some c' => simp [← ih, hr]

theorem removeChain_some {k : K} {c c' : Chain K V} (h : removeChain k c = some c') :
    ∃ pre e post, c = pre ++ e :: post ∧ c' = pre ++ post ∧ e.key = k ∧
      ∀ e' ∈ pre, e'.key ≠ k := by
  induction c generalizing c' with
  | nil => simp [removeChain] at h
  | cons e rest ih =>
    by_cases he : e.key = k
    · refine ⟨[], e, rest, by simp, ?_, he, by simp⟩
      simp [removeChain, he] at h
      simp [h.symm]
    · simp only [removeChain, if_neg he] at h
      cases hr : removeChain k rest with
      | none => simp [hr] at h
      | some r =>
        rw [hr] at h
        obtain ⟨pre, f, post, h₁, h₂, h₃, h₄⟩ := ih hr
        refine ⟨e :: pre, f, post, by simp [h₁], ?_, h₃, ?_⟩
        · simp at h
          simp [← h, h₂]
        · intro e' he'
          rcases List.mem_cons.mp he' with h' | h'
          · rw [h']; exact he
          · exact h₄ e' h'

theorem removeChain_length {k : K} {c c' : Chain K V} (h : removeChain k c = some c') :
    c.length = c'.length + 1 := by
  obtain ⟨pre, e, post, h₁, h₂, _, _⟩ := removeChain_some h
  subst h₁; subst h₂
  simp [List.length_append]
  omega

theorem removeChain_sublist {k : K} {c c' : Chain K V} (h : removeChain k c = some c') :
    c'.Sublist c := by
  obtain ⟨pre, e, post, h₁, h₂, _, _⟩ := removeChain_some h
  subst h₁; subst h₂
  exact (List.sublist_cons_self e post).append_left pre

theorem lookupChain_removeChain_ne {k k' : K} (h : k' ≠ k) {c c' : Chain K V}
    (hr : removeChain k c = some c') : lookupChain k' c' = lookupChain k' c := by
  obtain ⟨pre, e, post, h₁, h₂, hk, _⟩ := removeChain_some hr
  subst h₁; subst h₂
  rw [lookupChain_append, lookupChain_append]
  cases lookupChain k' pre with
  | some v => simp
  | none =>
    have : e.key ≠ k' := by rw [hk]; exact Ne.symm h
    simp [lookupChain, this]

theorem lookupChain_removeChain_self {k : K} {c c' : Chain K V}
    (hnd : (chainKeys c).Nodup) (hr : removeChain k c = some c') :
    lookupChain k c' = none := by
  obtain ⟨pre, e, post, h₁, h₂, hk, hpre⟩ := removeChain_some hr
  subst h₁; subst h₂
  rw [lookupChain_append]
  rw [(lookupChain_eq_none_iff k pre).mpr hpre]
  refine (lookupChain_eq_none_iff k post).mpr ?_
  intro f hf hfk
  have hnd2 : (chainKeys pre ++ e.key :: chainKeys post).Nodup := by
    simpa [chainKeys] using hnd
  have hcons : (e.key :: chainKeys post).Nodup := (List.nodup_append.mp hnd2).2.1
  have : e.key ∉ chainKeys post := (List.nodup_cons.mp hcons).1
  exact this (by rw [hk, ← hfk]; exact List.mem_map_of_mem _ hf)

theorem lookupChain_of_mem_nodup {c : Chain K V} (hnd : (chainKeys c).Nodup)
    {e : Entry K V} (he : e ∈ c) : lookupChain e.key c = some e.value := by
  induction c with
  | nil => simp at he
  | cons f rest ih =>
    by_cases hf : f.key = e.key
    · have : f = e := by
        rcases List.mem_cons.mp he with h | h
        · exact h.symm
        · exfalso
          have : f.key ∉ chainKeys rest :=
            (List.nodup_cons.mp (by simpa [chainKeys] using hnd)).1
          exact this (by rw [hf]; exact List.mem_map_of_mem _ h)
      simp [lookupChain, hf, this]
    · have he' : e ∈ rest := by
        rcases List.mem_cons.mp he with h | h
        · exact absurd (congrArg Entry.key h.symm) hf
        · exact h
      have hnd' : (chainKeys rest).Nodup :=
        (List.nodup_cons.mp (by simpa [chainKeys] using hnd)).2
      simpa [lookupChain, hf] using ih hnd' he'

/-!  Bucket-array access lemmas. -/

theorem getD_set_self (l : List (Chain K V)) {i : Nat} (h : i < l.length)
    (c : Chain K V) : (l.set i c).getD i [] = c := by
  simp [List.getD_eq_getElem?_getD, List.getElem?_set_self h]

theorem getD_set_ne (l : List (Chain K V)) {i j : Nat} (h : i ≠ j)
    (c : Chain K V) : (l.set i c).getD j [] = l.getD j [] := by
  simp [List.getD_eq_getElem?_getD, List.getElem?_set_ne h]

theorem hashIdx_lt {m : HashMap K V} (hpos : 0 < m.size) (k : K) :
    hashIdx hashFn m k < m.size :=
  Nat.mod_lt _ hpos

theorem size_hmInsert (m : HashMap K V) (k : K) (v : V) :
    (hmInsert hashFn m k v).size = m.size := rfl

theorem length_hmInsert (m : HashMap K V) (k : K) (v : V) :
    (hmInsert hashFn m k v).table.length = m.table.length := by
  simp [hmInsert]

theorem hashIdx_hmInsert (m : HashMap K V) (k k' : K) (v : V) :
    hashIdx hashFn (hmInsert hashFn m k v) k' = hashIdx hashFn m k' := rfl

/-- Inserting then looking up the same key finds the inserted value. -/
theorem hmLookup_hmInsert_self {m : HashMap K V} (k : K) (v : V)
    (hlen : m.table.length = m.size) (hpos : 0 < m.size) :
    hmLookup hashFn (hmInsert hashFn m k v) k = some v := by
  have hi : hashIdx hashFn m k < m.table.length := by
    rw [hlen]; exact hashIdx_lt hashFn hpos k
  show lookupChain k (getBucket (hmInsert hashFn m k v)
      (hashIdx hashFn (hmInsert hashFn m k v) k)) = some v
  rw [hashIdx_hmInsert]
  show lookupChain k ((m.table.set (hashIdx hashFn m k) _).getD (hashIdx hashFn m k) []) = _
  rw [getD_set_self _ hi]
  exact lookupChain_insertChain_self k v _

/-- Inserting key `k` does not change what lookup returns for `k' ≠ k`. -/
theorem hmLookup_hmInsert_ne {m : HashMap K V} {k k' : K} (h : k' ≠ k) (v : V) :
    hmLookup hashFn (hmInsert hashFn m k v) k' = hmLookup hashFn m k' := by
  show lookupChain k' ((m.table.set (hashIdx hashFn m k) _).getD
      (hashIdx hashFn m k') []) = _
  by_cases hi : hashIdx hashFn m k < m.table.length
  · by_cases hb : hashIdx hashFn m k = hashIdx hashFn m k'
    · rw [← hb, getD_set_self _ hi]
      calc lookupChain k' (insertChain k v (getBucket m (hashIdx hashFn m k)))
          = lookupChain k' (getBucket m (hashIdx hashFn m k)) :=
            lookupChain_insertChain_ne h v _
        _ = hmLookup hashFn m k' := by rw [hb]; rfl
    · rw [getD_set_ne _ hb]; rfl
  · rw [List.set_eq_of_length_le (Nat.le_of_not_lt hi)]; rfl

theorem hmExists_eq_isSome (m : HashMap K V) (k : K) :
    hmExists hashFn m k = (hmLookup hashFn m k).isSome := rfl

/-- `remove` fails (throws) exactly when `lookup` fails. -/
theorem hmRemove_none_iff (m : HashMap K V) (k : K) :
    hmRemove hashFn m k = none ↔ hmLookup hashFn m k = none := by
  unfold hmRemove hmLookup
  cases hr : removeChain k (getBucket m (hashIdx hashFn m k)) with
  | none => simp [(removeChain_none_iff k _).mp hr]
  | some c =>
    simp only [Option.some_ne_none, false_iff]
    intro hl
    have := (removeChain_none_iff k (getBucket m (hashIdx hashFn m k))).mpr hl
    rw [this] at hr
    exact Option.noConfusion hr

theorem hmRemove_some_size {m m' : HashMap K V} {k : K}
    (h : hmRemove hashFn m k = some m') :
    m'.size = m.size ∧ m'.table.length = m.table.length := by
  unfold hmRemove at h
  cases hr : removeChain k (getBucket m (hashIdx hashFn m k)) with
  | none => rw [hr] at h; exact Option.noConfusion h
  | some c =>
    rw [hr] at h
    have := Option.some_injective _ h
    rw [← this]
    simp

/-- Removing key `k` does not change what lookup returns for `k' ≠ k`. -/
theorem hmLookup_hmRemove_ne {m m' : HashMap K V} {k k' : K} (h : k' ≠ k)
    (hm : hmRemove hashFn m k = some m') :
    hmLookup hashFn m' k' = hmLookup hashFn m k' := by
  unfold hmRemove at hm
  cases hr : removeChain k (getBucket m (hashIdx hashFn m k)) with
  | none => rw [hr] at hm; exact Option.noConfusion hm
  | some c =>
    rw [hr] at hm
    obtain rfl : m' = ⟨m.size, m.table.set (hashIdx hashFn m k) c⟩ :=
      (Option.some_injective _ hm).symm
    show lookupChain k' ((m.table.set (hashIdx hashFn m k) c).getD
        (hashIdx hashFn m k') []) = _
    by_cases hi : hashIdx hashFn m k < m.table.length
    · by_cases hb : hashIdx hashFn m k = hashIdx hashFn m k'
      · rw [← hb, getD_set_self _ hi]
        calc lookupChain k' c
            = lookupChain k' (getBucket m (hashIdx hashFn m k)) :=
              lookupChain_removeChain_ne h hr
          _ = hmLookup hashFn m k' := by rw [hb]; rfl
      · rw [getD_set_ne _ hb]; rfl
    · rw [List.set_eq_of_length_le (Nat.le_of_not_lt hi)]; rfl

theorem getBucket_eq_getElem {m : HashMap K V} {i : Nat} (h : i < m.table.length) :
    getBucket m i = m.table[i] := by
  simp [getBucket, List.getD_eq_getElem?_getD, List.getElem?_eq_getElem h]

theorem mem_keys_insertChain_self (k : K) (v : V) (c : Chain K V) :
    k ∈ chainKeys (insertChain k v c) := by
  by_cases hm : k ∈ chainKeys c
  · rw [keys_insertChain_of_mem v hm]; exact hm
  · rw [keys_insertChain_of_not_mem v hm]; simp

theorem sum_map_length_set (l : List (Chain K V)) {i : Nat} (h : i < l.length)
    (c : Chain K V) :
    ((l.set i c).map List.length).sum + l[i].length
      = (l.map List.length).sum + c.length := by
  rw [List.set_eq_take_append_cons_drop, if_pos h]
  conv_rhs => rw [← List.take_append_drop i l, ← List.getElem_cons_drop l i h]
  rw [List.map_append, List.map_append, List.sum_append, List.sum_append,
    List.map_cons, List.map_cons, List.sum_cons, List.sum_cons]
  omega

/-!  Lemmas about operation sequences. -/

theorem size_applyOp (m : HashMap K V) (op : Op K V) :
    (applyOp hashFn m op).size = m.size := by
  cases op with
  | ins k v => rfl
  | del k =>
    show ((hmRemove hashFn m k).getD m).size = m.size
    cases hr : hmRemove hashFn m k with
    | none => rfl
    | some m' => simpa using (hmRemove_some_size hashFn hr).1

theorem length_applyOp (m : HashMap K V) (op : Op K V) :
    (applyOp hashFn m op).table.length = m.table.length := by
  cases op with
  | ins k v => exact length_hmInsert hashFn m k v
  | del k =>
    show ((hmRemove hashFn m k).getD m).table.length = m.table.length
    cases hr : hmRemove hashFn m k with
    | none => rfl
    | some m' => simpa using (hmRemove_some_size hashFn hr).2

theorem hmLookup_applyOp_untouched {m : HashMap K V} {k : K} {op : Op K V}
    (hop : ¬ op.touches k) :
    hmLookup hashFn (applyOp hashFn m op) k = hmLookup hashFn m k := by
  cases op with
  | ins key value => exact hmLookup_hmInsert_ne hashFn (Ne.symm hop) value
  | del key =>
    show hmLookup hashFn ((hmRemove hashFn m key).getD m) k = hmLookup hashFn m k
    cases hr : hmRemove hashFn m key with
    | none => rfl
    | some m' =>
      simpa using hmLookup_hmRemove_ne hashFn (Ne.symm hop) hr

theorem hmLookup_applyOps_untouched {k : K} (ops : List (Op K V)) {m : HashMap K V}
    (hops : ∀ op ∈ ops, ¬ op.touches k) :
    hmLookup hashFn (applyOps hashFn m ops) k = hmLookup hashFn m k := by
  induction ops generalizing m with
  | nil => rfl
  | cons op ops ih =>
    show hmLookup hashFn (applyOps hashFn (applyOp hashFn m op) ops) k = _
    rw [ih (fun o ho => hops o (List.mem_cons_of_mem _ ho))]
    exact hmLookup_applyOp_untouched hashFn (hops op (List.mem_cons_self _ _))

/-!  Preservation of well-formedness. -/

theorem getBucket_mkHashMap (capacity i : Nat) :
    getBucket (mkHashMap capacity : HashMap K V) i = [] := by
  unfold getBucket mkHashMap
  simp [List.getD_eq_getElem?_getD, List.getElem?_replicate]
  by_cases h : i < capacity <;> simp [h]

theorem getBucket_hmInsert_self {m : HashMap K V} (k : K) (v : V)
    (hilt : hashIdx hashFn m k < m.table.length) :
    getBucket (hmInsert hashFn m k v) (hashIdx hashFn m k)
      = insertChain k v (getBucket m (hashIdx hashFn m k)) := by
  show (m.table.set (hashIdx hashFn m k) _).getD (hashIdx hashFn m k) [] = _
  rw [getD_set_self _ hilt]

theorem getBucket_hmInsert_ne {m : HashMap K V} (k : K) (v : V) {j : Nat}
    (hne : hashIdx hashFn m k ≠ j) :
    getBucket (hmInsert hashFn m k v) j = getBucket m j := by
  show (m.table.set (hashIdx hashFn m k) _).getD j [] = _
  rw [getD_set_ne _ hne]
  rfl

theorem wf_mkHashMap (capacity : Nat) (h : 0 < capacity) :
    WF hashFn (mkHashMap capacity : HashMap K V) := by
  refine ⟨by simp [mkHashMap], by simpa [mkHashMap] using h, ?_⟩
  intro i hi
  rw [getBucket_mkHashMap]
  simp [chainKeys]

theorem wf_hmInsert {m : HashMap K V} (hwf : WF hashFn m) (k : K) (v : V) :
    WF hashFn (hmInsert hashFn m k v) := by
  obtain ⟨hlen, hpos, hbuckets⟩ := hwf
  have hilt : hashIdx hashFn m k < m.table.length := by
    rw [hlen]; exact hashIdx_lt hashFn hpos k
  refine ⟨by simpa [hmInsert] using hlen, hpos, ?_⟩
  intro j hj
  show (∀ e ∈ getBucket (hmInsert hashFn m k v) j, hashFn e.key % m.size = j) ∧
    (chainKeys (getBucket (hmInsert hashFn m k v) j)).Nodup
  by_cases hij : hashIdx hashFn m k = j
  · rw [← hij, getBucket_hmInsert_self hashFn k v hilt]
    constructor
    · intro e he
      have hkey : e.key ∈ chainKeys (insertChain k v (getBucket m (hashIdx hashFn m k))) :=
        List.mem_map_of_mem _ he
      rcases mem_keys_insertChain hkey with hek | hek
      · rw [hek]; rfl
      · obtain ⟨e', he', hekey⟩ := List.mem_map.mp hek
        rw [← hekey]
        exact (hbuckets _ (hij ▸ hj)).1 e' he'
    · exact nodup_keys_insertChain k v (hbuckets _ (hij ▸ hj)).2
  · rw [getBucket_hmInsert_ne hashFn k v hij]
    exact hbuckets j hj

theorem wf_hmRemove {m m' : HashMap K V} {k : K} (hwf : WF hashFn m)
    (hr : hmRemove hashFn m k = some m') : WF hashFn m' := by
  obtain ⟨hlen, hpos, hbuckets⟩ := hwf
  unfold hmRemove at hr
  cases hc : removeChain k (getBucket m (hashIdx hashFn m k)) with
  | none => rw [hc] at hr; exact Option.noConfusion hr
  | some c =>
    rw [hc] at hr
    obtain rfl : m' = ⟨m.size, m.table.set (hashIdx hashFn m k) c⟩ :=
      (Option.some_injective _ hr).symm
    have hsub : c.Sublist (getBucket m (hashIdx hashFn m k)) := removeChain_sublist hc
    refine ⟨by simpa using hlen, hpos, ?_⟩
    intro j hj
    show (∀ e ∈ (m.table.set (hashIdx hashFn m k) c).getD j [], hashFn e.key % m.size = j) ∧
      (chainKeys ((m.table.set (hashIdx hashFn m k) c).getD j [])).Nodup
    by_cases hij : hashIdx hashFn m k = j
    · have hilt : hashIdx hashFn m k < m.table.length := by
        rw [hlen, hij]; exact hj
      rw [← hij, getD_set_self _ hilt]
      constructor
      · intro e he
        exact (hbuckets _ (hij ▸ hj)).1 e (hsub.mem he)
      · exact List.Nodup.sublist (hsub.map _) (hbuckets _ (hij ▸ hj)).2
    · rw [getD_set_ne _ hij]
      exact hbuckets j hj

theorem size_insertList (es : List (Entry K V)) (acc : HashMap K V) :
    (insertList hashFn acc es).size = acc.size := by
  induction es generalizing acc with
  | nil => rfl
  | cons e es ih =>
    show (insertList hashFn (hmInsert hashFn acc e.key e.value) es).size = _
    rw [ih]
    rfl

theorem length_insertList (es : List (Entry K V)) (acc : HashMap K V) :
    (insertList hashFn acc es).table.length = acc.table.length := by
  induction es generalizing acc with
  | nil => rfl
  | cons e es ih =>
    show (insertList hashFn (hmInsert hashFn acc e.key e.value) es).table.length = _
    rw [ih, length_hmInsert]

theorem wf_insertList (es : List (Entry K V)) {acc : HashMap K V}
    (hwf : WF hashFn acc) : WF hashFn (insertList hashFn acc es) := by
  induction es generalizing acc with
  | nil => exact hwf
  | cons e es ih => exact ih (wf_hmInsert hashFn hwf e.key e.value)

theorem hmCopy_eq_insertList (m : HashMap K V) :
    hmCopy hashFn m = insertList hashFn (mkHashMap m.size) m.table.flatten := by
  unfold hmCopy insertList
  rw [List.foldl_flatten]

theorem hmResize_eq_insertList (m : HashMap K V) (newSize : Nat) :
    hmResize hashFn m newSize
      = insertList hashFn (mkHashMap newSize) m.table.flatten := by
  unfold hmResize insertList mkHashMap
  rw [List.foldl_flatten]

theorem wf_hmResize (m : HashMap K V) {newSize : Nat} (h : 0 < newSize) :
    WF hashFn (hmResize hashFn m newSize) := by
  rw [hmResize_eq_insertList]
  exact wf_insertList hashFn _ (wf_mkHashMap hashFn newSize h)

/-- Every reachable table state is well-formed. -/
theorem wf_of_reachable {m : HashMap K V} (h : Reachable hashFn m) : WF hashFn m := by
  induction h with
  | init capacity hpos => exact wf_mkHashMap hashFn capacity hpos
  | insert key value _ ih => exact wf_hmInsert hashFn ih key value
  | remove key _ hr ih => exact wf_hmRemove hashFn ih hr
  | resize newSize hpos _ _ => exact wf_hmResize hashFn _ hpos

/-!  Lookup after rebuilding a table by repeated insertion (the shape of
the copy constructor, the copy assignment operator, and `resize`). -/

theorem hmLookup_insertList (es : List (Entry K V)) {acc : HashMap K V} (k : K)
    (hnd : (chainKeys es).Nodup)
    (hlen : acc.table.length = acc.size) (hpos : 0 < acc.size) :
    hmLookup hashFn (insertList hashFn acc es) k =
      match lookupChain k es with
      | some v => some v
      | none => hmLookup hashFn acc k := by
  induction es generalizing acc with
  | nil => simp [insertList, lookupChain]
  | cons e es ih =>
    have hnd' : (chainKeys es).Nodup :=
      (List.nodup_cons.mp (by simpa [chainKeys] using hnd)).2
    have hlen' : (hmInsert hashFn acc e.key e.value).table.length
        = (hmInsert hashFn acc e.key e.value).size := by
      rw [length_hmInsert]; exact hlen
    show hmLookup hashFn (insertList hashFn (hmInsert hashFn acc e.key e.value) es) k = _
    rw [ih hnd' hlen' hpos]
    by_cases hk : e.key = k
    · have hnone : lookupChain k es = none := by
        refine (lookupChain_eq_none_iff k es).mpr ?_
        intro f hf hfk
        have hhead : e.key ∉ chainKeys es :=
          (List.nodup_cons.mp (by simpa [chainKeys] using hnd)).1
        exact hhead (by rw [hk, ← hfk]; exact List.mem_map_of_mem _ hf)
      rw [hnone]
      show hmLookup hashFn (hmInsert hashFn acc e.key e.value) k
          = match lookupChain k (e :: es) with
            | some v => some v
            | none => hmLookup hashFn acc k
      rw [show lookupChain k (e :: es) = some e.value by simp [lookupChain, hk]]
      rw [← hk]
      exact hmLookup_hmInsert_self hashFn e.key e.value hlen hpos
    · rw [show lookupChain k (e :: es) = lookupChain k es by simp [lookupChain, hk]]
      cases lookupChain k es with
      | some v => rfl
      | none => exact hmLookup_hmInsert_ne hashFn (Ne.symm hk) e.value

/-- Under well-formedness the keys across the whole table are distinct:
a key's entries can only live in the one bucket its hash selects. -/
theorem wf_nodup_flatten {m : HashMap K V} (hwf : WF hashFn m) :
    (chainKeys m.table.flatten).Nodup := by
  obtain ⟨hlen, hpos, hbuckets⟩ := hwf
  rw [chainKeys, List.map_flatten, List.nodup_flatten]
  constructor
  · intro l hl
    obtain ⟨c, hc, rfl⟩ := List.mem_map.mp hl
    obtain ⟨j, hj, rfl⟩ := List.mem_iff_getElem.mp hc
    have hjs : j < m.size := hlen ▸ hj
    have := (hbuckets j hjs).2
    rwa [getBucket_eq_getElem hj, chainKeys] at this
  · rw [List.pairwise_iff_getElem]
    intro i j hi hj hij
    intro a hai haj
    simp only [List.getElem_map] at hai haj
    have hilen : i < m.table.length := by simpa using hi
    have hjlen : j < m.table.length := by simpa using hj
    obtain ⟨e, he, rfl⟩ := List.mem_map.mp hai
    obtain ⟨f, hf, hfa⟩ := List.mem_map.mp haj
    have h1 : hashFn e.key % m.size = i := by
      have := (hbuckets i (hlen ▸ hilen)).1 e
      rw [getBucket_eq_getElem hilen] at this
      exact this he
    have h2 : hashFn f.key % m.size = j := by
      have := (hbuckets j (hlen ▸ hjlen)).1 f
      rw [getBucket_eq_getElem hjlen] at this
      exact this hf
    rw [← hfa] at h1
    omega

/-- Scanning the whole table flattened in bucket order agrees with the
bucket-local scan `lookup` performs, because a key's entries can only
live in the bucket its hash selects. -/
theorem hmLookup_eq_lookupChain_flatten {m : HashMap K V} (hwf : WF hashFn m) (k : K) :
    hmLookup hashFn m k = lookupChain k m.table.flatten := by
  obtain ⟨hlen, hpos, hbuckets⟩ := hwf
  have hilt : hashIdx hashFn m k < m.table.length := by
    rw [hlen]; exact hashIdx_lt hashFn hpos k
  have hplace : ∀ (j : Nat) (hj : j < m.table.length),
      j ≠ hashIdx hashFn m k → ∀ e ∈ m.table[j], e.key ≠ k := by
    intro j hj hne e he hek
    refine hne ?_
    have := (hbuckets j (hlen ▸ hj)).1 e
    rw [getBucket_eq_getElem hj] at this
    have hplaced := this he
    rw [hek] at hplaced
    rw [← hplaced]
    rfl
  conv_rhs =>
    rw [← List.take_append_drop (hashIdx hashFn m k) m.table,
      ← List.getElem_cons_drop m.table (hashIdx hashFn m k) hilt]
  rw [List.flatten_append, List.flatten_cons, lookupChain_append]
  have htake : lookupChain k (List.take (hashIdx hashFn m k) m.table).flatten = none := by
    refine (lookupChain_eq_none_iff k _).mpr ?_
    intro e he
    obtain ⟨c, hc, hec⟩ := List.mem_flatten.mp he
    obtain ⟨j, hj, hcj⟩ := List.mem_iff_getElem.mp hc
    have hjlt : j < hashIdx hashFn m k := by
      have := hj
      simp [List.length_take] at this
      omega
    have hjlen : j < m.table.length := Nat.lt_trans hjlt hilt
    have : (List.take (hashIdx hashFn m k) m.table)[j] = m.table[j] :=
      List.getElem_take m.table
    rw [this] at hcj
    exact hplace j hjlen (Nat.ne_of_lt hjlt) e (hcj ▸ hec)
  rw [htake, lookupChain_append]
  show lookupChain k (getBucket m (hashIdx hashFn m k)) = _
  rw [getBucket_eq_getElem hilt]
  cases hb : lookupChain k m.table[hashIdx hashFn m k] with
  | some v => rfl
  | none =>
    have hdrop : lookupChain k (List.drop (hashIdx hashFn m k + 1) m.table).flatten
        = none := by
      refine (lookupChain_eq_none_iff k _).mpr ?_
      intro e he
      obtain ⟨c, hc, hec⟩ := List.mem_flatten.mp he
      obtain ⟨j, hj, hcj⟩ := List.mem_iff_getElem.mp hc
      have hjlen : hashIdx hashFn m k + 1 + j < m.table.length := by
        have := hj
        simp [List.length_drop] at this
        omega
      have : (List.drop (hashIdx hashFn m k + 1) m.table)[j]
          = m.table[hashIdx hashFn m k + 1 + j] := List.getElem_drop m.table
      rw [this] at hcj
      exact hplace _ hjlen (by omega) e (hcj ▸ hec)
    rw [hdrop]

/-- Rebuilding a well-formed table's entries by insertion into a fresh
empty table of any positive capacity preserves every lookup. -/
theorem hmLookup_rebuild {m : HashMap K V} (hwf : WF hashFn m) {s : Nat}
    (hs : 0 < s) (k : K) :
    hmLookup hashFn (insertList hashFn (mkHashMap s) m.table.flatten) k
      = hmLookup hashFn m k := by
  rw [hmLookup_insertList hashFn _ k (wf_nodup_flatten hashFn hwf)
    (by simp [mkHashMap]) (by simpa [mkHashMap] using hs)]
  rw [← hmLookup_eq_lookupChain_flatten hashFn hwf k]
  cases hl : hmLookup hashFn m k with
  | some v => rfl
  | none =>
    show hmLookup hashFn (mkHashMap s) k = none
    unfold hmLookup
    rw [getBucket_mkHashMap]
    rfl

/-- Lookup after the copy constructor / copy assignment operator. -/
theorem hmLookup_hmCopy {m : HashMap K V} (hwf : WF hashFn m) (k : K) :
    hmLookup hashFn (hmCopy hashFn m) k = hmLookup hashFn m k := by
  rw [hmCopy_eq_insertList]
  exact hmLookup_rebuild hashFn hwf hwf.2.1 k

/-- Lookup after `resize`, for any positive new capacity. -/
theorem hmLookup_hmResize {m : HashMap K V} (hwf : WF hashFn m) {newSize : Nat}
    (hs : 0 < newSize) (k : K) :
    hmLookup hashFn (hmResize hashFn m newSize) k = hmLookup hashFn m k := by
  rw [hmResize_eq_insertList]
  exact hmLookup_rebuild hashFn hwf hs k

theorem size_hmResize (m : HashMap K V) (newSize : Nat) :
    (hmResize hashFn m newSize).size = newSize := by
  rw [hmResize_eq_insertList, size_insertList]
  rfl

theorem size_hmCopy (m : HashMap K V) :
    (hmCopy hashFn m).size = m.size := by
  rw [hmCopy_eq_insertList, size_insertList]
  rfl

/-!  Traversal lemmas. -/

theorem iterToList_nil (m : HashMap K V) (j : Nat) :
    iterToList m ⟨j, []⟩ = [] := by
  simp [iterToList]

theorem iterToList_chain (m : HashMap K V) :
    ∀ (c : Chain K V) (e : Entry K V) (j : Nat),
      iterToList m ⟨j, e :: c⟩ = (e :: c) ++ iterToList m (scanFrom m (j + 1)) := by
  intro c
  induction c with
  | nil =>
    intro e j
    simp [iterToList]
  | cons f c ih =>
    intro e j
    simp only [iterToList]
    rw [ih f j]
    simp

theorem iterToList_scanFrom_eq (m : HashMap K V) (hlen : m.table.length = m.size) :
    ∀ (fuel j : Nat), m.size - j ≤ fuel →
      iterToList m (scanFrom m j) = (m.table.drop j).flatten := by
  intro fuel
  induction fuel with
  | zero =>
    intro j hj
    rw [scanFrom.eq_def, if_neg (by omega), iterToList_nil]
    rw [List.drop_eq_nil_of_le (by omega)]
    rfl
  | succ n ih =>
    intro j hj
    by_cases h : j < m.size
    · have hjlen : j < m.table.length := by omega
      rw [scanFrom.eq_def, if_pos h]
      cases hb : getBucket m j with
      | nil =>
        rw [ih (j + 1) (by omega)]
        conv_rhs => rw [← List.getElem_cons_drop m.table j hjlen]
        rw [List.flatten_cons, ← getBucket_eq_getElem hjlen, hb]
        rfl
      | cons e rest =>
        rw [iterToList_chain, ih (j + 1) (by omega)]
        conv_rhs => rw [← List.getElem_cons_drop m.table j hjlen]
        rw [List.flatten_cons, ← getBucket_eq_getElem hjlen, hb]
    · rw [scanFrom.eq_def, if_neg h, iterToList_nil]
      rw [List.drop_eq_nil_of_le (by omega)]
      rfl

/-- `HashMapIter` traversal from `first()` visits exactly the stored
entries, in bucket-index-ascending order and chain order inside each
bucket — the behaviour §4.7 of the spec describes. -/
theorem iterFirst_complete (m : HashMap K V) (hlen : m.table.length = m.size) :
    iterToList m (iterFirst m) = m.table.flatten := by
  have h := iterToList_scanFrom_eq m hlen m.size 0 (by omega)
  simpa [iterFirst] using h

/-!  Claim theorems. -/

/-- C1: for every key `k` and value `v`, if `insert(k, v)` is performed on
a table with capacity > 0 and `k` is not subsequently removed or
overwritten by a later insert of `k` (any other inserts/removes may
happen), then `lookup(k)` returns `v` and `exists(k)` returns true. -/
theorem insert_lookup_exists_persist (m : HashMap K V) (k : K) (v : V)
    (ops : List (Op K V)) (hlen : m.table.length = m.size) (hpos : 0 < m.size)
    (hops : ∀ op ∈ ops, ¬ op.touches k) :
    hmLookup hashFn (applyOps hashFn (hmInsert hashFn m k v) ops) k = some v ∧
    hmExists hashFn (applyOps hashFn (hmInsert hashFn m k v) ops) k = true := by
  have h1 : hmLookup hashFn (applyOps hashFn (hmInsert hashFn m k v) ops) k = some v := by
    rw [hmLookup_applyOps_untouched hashFn ops hops]
    exact hmLookup_hmInsert_self hashFn k v hlen hpos
  refine ⟨h1, ?_⟩
  rw [hmExists_eq_isSome, h1]
  rfl

theorem insert_lookup_exists_persist_witness :
    ((mkHashMap 3 : HashMap Nat Nat).table.length = (mkHashMap 3 : HashMap Nat Nat).size
      ∧ 0 < (mkHashMap 3 : HashMap Nat Nat).size
      ∧ ∀ op ∈ ([Op.ins 2 7, Op.del 2, Op.ins 0 9] : List (Op Nat Nat)), ¬ op.touches 1)
    ∧ hmLookup (fun n => n)
        (applyOps (fun n => n) (hmInsert (fun n => n) (mkHashMap 3) 1 42)
          [Op.ins 2 7, Op.del 2, Op.ins 0 9]) 1 = some 42
    ∧ hmExists (fun n => n)
        (applyOps (fun n => n) (hmInsert (fun n => n) (mkHashMap 3) 1 42)
          [Op.ins 2 7, Op.del 2, Op.ins 0 9]) 1 = true :=
  ⟨⟨by decide, by decide, by decide⟩,
    (insert_lookup_exists_persist (fun n => n) (mkHashMap 3) 1 42
      [Op.ins 2 7, Op.del 2, Op.ins 0 9] (by decide) (by decide) (by decide)).1,
    (insert_lookup_exists_persist (fun n => n) (mkHashMap 3) 1 42
      [Op.ins 2 7, Op.del 2, Op.ins 0 9] (by decide) (by decide) (by decide)).2⟩

/-- C2: on a table with capacity > 0, `insert(k, v1); insert(k, v2)`
yields `lookup(k) == v2` and does not grow `k`'s bucket chain (the
second insert overwrites in place); and on any chain without the key,
insert appends exactly one entry at the tail. -/
theorem insert_upsert_no_duplicate (m : HashMap K V) (k : K) (v₁ v₂ : V)
    (hlen : m.table.length = m.size) (hpos : 0 < m.size) :
    hmLookup hashFn (hmInsert hashFn (hmInsert hashFn m k v₁) k v₂) k = some v₂ ∧
    (getBucket (hmInsert hashFn (hmInsert hashFn m k v₁) k v₂)
        (hashIdx hashFn m k)).length
      = (getBucket (hmInsert hashFn m k v₁) (hashIdx hashFn m k)).length ∧
    ∀ c : Chain K V, (∀ e ∈ c, e.key ≠ k) → insertChain k v₂ c = c ++ [⟨k, v₂⟩] := by
  have hlen1 : (hmInsert hashFn m k v₁).table.length = (hmInsert hashFn m k v₁).size := by
    rw [length_hmInsert]; exact hlen
  have hilt : hashIdx hashFn m k < m.table.length := by
    rw [hlen]; exact hashIdx_lt hashFn hpos k
  have hilt1 : hashIdx hashFn (hmInsert hashFn m k v₁) k
      < (hmInsert hashFn m k v₁).table.length := by
    rw [length_hmInsert]; exact hilt
  refine ⟨hmLookup_hmInsert_self hashFn k v₂ hlen1 hpos, ?_,
    fun c hc => insertChain_of_not_mem v₂ hc⟩
  rw [show hashIdx hashFn m k = hashIdx hashFn (hmInsert hashFn m k v₁) k from rfl]
  rw [getBucket_hmInsert_self hashFn k v₂ hilt1]
  refine length_insertChain_of_mem v₂ ?_
  rw [show hashIdx hashFn (hmInsert hashFn m k v₁) k = hashIdx hashFn m k from rfl,
    getBucket_hmInsert_self hashFn k v₁ hilt]
  exact mem_keys_insertChain_self k v₁ _

theorem insert_upsert_no_duplicate_witness :
    ((mkHashMap 3 : HashMap Nat Nat).table.length = (mkHashMap 3 : HashMap Nat Nat).size
      ∧ 0 < (mkHashMap 3 : HashMap Nat Nat).size)
    ∧ hmLookup (fun n => n)
        (hmInsert (fun n => n) (hmInsert (fun n => n) (mkHashMap 3) 1 10) 1 20) 1
        = some 20
    ∧ (getBucket (hmInsert (fun n => n) (hmInsert (fun n => n) (mkHashMap 3) 1 10) 1 20)
        (hashIdx (fun n => n) (mkHashMap 3 : HashMap Nat Nat) 1)).length
      = (getBucket (hmInsert (fun n => n) (mkHashMap 3) 1 10)
        (hashIdx (fun n => n) (mkHashMap 3 : HashMap Nat Nat) 1)).length :=
  ⟨⟨by decide, by decide⟩,
    (insert_upsert_no_duplicate (fun n => n) (mkHashMap 3) 1 10 20
      (by decide) (by decide)).1,
    (insert_upsert_no_duplicate (fun n => n) (mkHashMap 3) 1 10 20
      (by decide) (by decide)).2.1⟩

/-- C4: on a table with capacity > 0, `lookup` and `remove` of an absent
key both fail with the KeyNotFound (out-of-range) error, and the failed
`remove` leaves the caller's table exactly as it was. -/
theorem absent_key_lookup_remove_fail (m : HashMap K V) (k : K)
    (hpos : 0 < m.size) (habs : hmExists hashFn m k = false) :
    hmLookup hashFn m k = none ∧ hmRemove hashFn m k = none ∧
    (hmRemove hashFn m k).getD m = m := by
  have hl : hmLookup hashFn m k = none := by
    rw [hmExists_eq_isSome] at habs
    cases ho : hmLookup hashFn m k with
    | none => rfl
    | some v => rw [ho] at habs; simp at habs
  refine ⟨hl, (hmRemove_none_iff hashFn m k).mpr hl, ?_⟩
  rw [(hmRemove_none_iff hashFn m k).mpr hl]
  rfl

theorem absent_key_lookup_remove_fail_witness :
    (0 < (hmInsert (fun n => n) (mkHashMap 3) 1 10 : HashMap Nat Nat).size
      ∧ hmExists (fun n => n) (hmInsert (fun n => n) (mkHashMap 3) 1 10) 2 = false)
    ∧ hmLookup (fun n => n) (hmInsert (fun n => n) (mkHashMap 3) 1 10) 2 = none
    ∧ hmRemove (fun n => n) (hmInsert (fun n => n) (mkHashMap 3) 1 10) 2 = none :=
  ⟨⟨by decide, by decide⟩,
    (absent_key_lookup_remove_fail (fun n => n) (hmInsert (fun n => n) (mkHashMap 3) 1 10)
      2 (by decide) (by decide)).1,
    (absent_key_lookup_remove_fail (fun n => n) (hmInsert (fun n => n) (mkHashMap 3) 1 10)
      2 (by decide) (by decide)).2.1⟩

/-- C5: on a well-formed table with capacity > 0, removing a present key
succeeds, deletes exactly one entry (the one with that key), makes
`exists(k)` false and a following `lookup(k)` fail, keeps every other
key's value reachable and unchanged, and keeps the capacity. -/
theorem remove_present_spec (m : HashMap K V) (k : K) (hwf : WF hashFn m)
    (hex : hmExists hashFn m k = true) :
    ∃ m', hmRemove hashFn m k = some m' ∧
      hmExists hashFn m' k = false ∧
      hmLookup hashFn m' k = none ∧
      (∀ k', k' ≠ k → hmLookup hashFn m' k' = hmLookup hashFn m k') ∧
      numEntries m' + 1 = numEntries m ∧
      m'.size = m.size := by
  obtain ⟨hlen, hpos, hbuckets⟩ := hwf
  have hilt : hashIdx hashFn m k < m.table.length := by
    rw [hlen]; exact hashIdx_lt hashFn hpos k
  have hlsome : hmLookup hashFn m k ≠ none := by
    rw [hmExists_eq_isSome] at hex
    intro h
    rw [h] at hex
    simp at hex
  cases hc : removeChain k (getBucket m (hashIdx hashFn m k)) with
  | none =>
    exact absurd ((removeChain_none_iff k _).mp hc) hlsome
  | some c =>
    have hr : hmRemove hashFn m k
        = some ⟨m.size, m.table.set (hashIdx hashFn m k) c⟩ := by
      unfold hmRemove
      rw [hc]
    refine ⟨_, hr, ?_, ?_, ?_, ?_, rfl⟩
    · rw [hmExists_eq_isSome]
      have : hmLookup hashFn (⟨m.size, m.table.set (hashIdx hashFn m k) c⟩ : HashMap K V) k
          = none := by
        show lookupChain k ((m.table.set (hashIdx hashFn m k) c).getD
          (hashFn k % m.size) []) = none
        rw [show hashFn k % m.size = hashIdx hashFn m k from rfl, getD_set_self _ hilt]
        exact lookupChain_removeChain_self
          ((hbuckets _ (hashIdx_lt hashFn hpos k)).2) hc
      rw [this]
      rfl
    · show lookupChain k ((m.table.set (hashIdx hashFn m k) c).getD
        (hashFn k % m.size) []) = none
      rw [show hashFn k % m.size = hashIdx hashFn m k from rfl, getD_set_self _ hilt]
      exact lookupChain_removeChain_self
        ((hbuckets _ (hashIdx_lt hashFn hpos k)).2) hc
    · intro k' hk'
      exact hmLookup_hmRemove_ne hashFn hk' hr
    · have hcount := sum_map_length_set m.table hilt c
      have hblen : (getBucket m (hashIdx hashFn m k)).length = c.length + 1 :=
        removeChain_length hc
      rw [getBucket_eq_getElem hilt] at hblen
      show ((m.table.set (hashIdx hashFn m k) c).map List.length).sum + 1
        = (m.table.map List.length).sum
      omega

theorem remove_present_spec_witness :
    (WF (fun n => n) (hmInsert (fun n => n) (hmInsert (fun n => n) (mkHashMap 3) 1 10) 2 20)
      ∧ hmExists (fun n => n)
          (hmInsert (fun n => n) (hmInsert (fun n => n) (mkHashMap 3) 1 10) 2 20) 1 = true)
    ∧ ∃ m', hmRemove (fun n => n)
          (hmInsert (fun n => n) (hmInsert (fun n => n) (mkHashMap 3) 1 10) 2 20) 1
          = some m' ∧
        hmExists (fun n => n) m' 1 = false ∧
        hmLookup (fun n => n) m' 1 = none ∧
        (∀ k', k' ≠ 1 → hmLookup (fun n => n) m' k'
          = hmLookup (fun n => n)
              (hmInsert (fun n => n) (hmInsert (fun n => n) (mkHashMap 3) 1 10) 2 20) k') ∧
        numEntries m' + 1
          = numEntries (hmInsert (fun n => n) (hmInsert (fun n => n) (mkHashMap 3) 1 10) 2 20) ∧
        m'.size = (hmInsert (fun n => n) (hmInsert (fun n => n) (mkHashMap 3) 1 10) 2 20).size :=
  ⟨⟨by decide, by decide⟩,
    remove_present_spec (fun n => n)
      (hmInsert (fun n => n) (hmInsert (fun n => n) (mkHashMap 3) 1 10) 2 20) 1
      (by decide) (by decide)⟩

/-- C7: moving a table (move constructor / move assignment) transfers the
bucket array and capacity wholesale to the destination and leaves the
source in the default-constructed empty state: size 0, no buckets. -/
theorem move_transfers_and_empties_source (t : HashMap K V) :
    (hmMove t).1 = t ∧ (hmMove t).2 = HashMap.default ∧
    (hmMove t).2.size = 0 ∧ (hmMove t).2.table = [] :=
  ⟨rfl, rfl, rfl, rfl⟩

/-- C10: advancing an iterator whose current entry is the end sentinel
(null `_curr`) is a no-op: `next()` returns immediately and the cursor
still equals end. -/
theorem iterNext_end_noop (m : HashMap K V) (it : Iter K V) (h : it.curr = []) :
    iterNext m it = it := by
  unfold iterNext
  rw [h]

theorem iterNext_end_noop_witness :
    ((⟨2, []⟩ : Iter Nat Nat).curr = []) ∧
    iterNext (mkHashMap 2 : HashMap Nat Nat) ⟨2, []⟩ = ⟨2, []⟩ :=
  ⟨rfl, iterNext_end_noop (mkHashMap 2) ⟨2, []⟩ rfl⟩

/-- C3: the resize round-trip as the spec intends it (fresh bucket array
all-empty and a usable new lock array — the idealization the source's
`newTable[newIdx] == nullptr` test presupposes but its allocation does
not establish): after inserting distinct keys into a positive-capacity
table and resizing to a larger capacity, `size()` is the new capacity
and every key still looks up to its original value. -/
theorem resize_roundtrip (cap newSize : Nat) (es : List (Entry K V))
    (hnd : (chainKeys es).Nodup) (hcap : 0 < cap) (hgrow : cap < newSize) :
    (hmResize hashFn (insertList hashFn (mkHashMap cap) es) newSize).size = newSize ∧
    ∀ e ∈ es,
      hmLookup hashFn (hmResize hashFn (insertList hashFn (mkHashMap cap) es) newSize)
        e.key = some e.value := by
  have hwft : WF hashFn (insertList hashFn (mkHashMap cap) es) :=
    wf_insertList hashFn es (wf_mkHashMap hashFn cap hcap)
  refine ⟨size_hmResize hashFn _ _, ?_⟩
  intro e he
  rw [hmLookup_hmResize hashFn hwft (by omega) e.key]
  rw [hmLookup_insertList hashFn es e.key hnd (by simp [mkHashMap])
    (by simpa [mkHashMap] using hcap)]
  rw [lookupChain_of_mem_nodup hnd he]

theorem resize_roundtrip_witness :
    ((chainKeys ([⟨1, 10⟩, ⟨2, 20⟩, ⟨7, 70⟩] : List (Entry Nat Nat))).Nodup
      ∧ 0 < 2 ∧ 2 < 5)
    ∧ (hmResize (fun n => n)
        (insertList (fun n => n) (mkHashMap 2) [⟨1, 10⟩, ⟨2, 20⟩, ⟨7, 70⟩]) 5).size = 5
    ∧ hmLookup (fun n => n)
        (hmResize (fun n => n)
          (insertList (fun n => n) (mkHashMap 2) [⟨1, 10⟩, ⟨2, 20⟩, ⟨7, 70⟩]) 5) 7
        = some 70 :=
  ⟨⟨by decide, by decide, by decide⟩,
    (resize_roundtrip (fun n => n) 2 5 [⟨1, 10⟩, ⟨2, 20⟩, ⟨7, 70⟩]
      (by decide) (by decide) (by decide)).1,
    (resize_roundtrip (fun n => n) 2 5 [⟨1, 10⟩, ⟨2, 20⟩, ⟨7, 70⟩]
      (by decide) (by decide) (by decide)).2 ⟨7, 70⟩ (by decide)⟩

/-- C6: hash-placement invariant — in every table state reachable from a
sized construction by inserts, removes, and (idealized, see C3) resizes
with positive capacities, every entry in the chain at bucket `i`
satisfies `hash(key) % capacity == i`. -/
theorem reachable_hash_placement {m : HashMap K V} (h : Reachable hashFn m) :
    ∀ i < m.size, ∀ e ∈ getBucket m i, hashFn e.key % m.size = i :=
  fun i hi e he => ((wf_of_reachable hashFn h).2.2 i hi).1 e he

theorem reachable_hash_placement_witness :
    Reachable (fun n => n)
      (hmResize (fun n => n) (hmInsert (fun n => n) (mkHashMap 2) 5 1) 3)
    ∧ (fun n => n) ((⟨5, 1⟩ : Entry Nat Nat)).key
        % (hmResize (fun n => n) (hmInsert (fun n => n) (mkHashMap 2) 5 1) 3).size = 2 :=
  ⟨Reachable.resize 3 (by decide) (Reachable.insert 5 1 (Reachable.init 2 (by decide))),
    reachable_hash_placement (fun n => n)
      (Reachable.resize 3 (by decide) (Reachable.insert 5 1 (Reachable.init 2 (by decide))))
      2 (by decide) ⟨5, 1⟩ (by decide)⟩

/-- C8: the copy constructor / copy assignment produce a table with the
same capacity and the same logical contents, and the two tables are
independent: inserting or removing on the source does not change what
the copy's lookup returns for untouched keys, and mutating the copy
does not change the source's lookups for untouched keys. -/
theorem copy_independence (m : HashMap K V) (hwf : WF hashFn m) :
    (hmCopy hashFn m).size = m.size ∧
    (∀ k, hmLookup hashFn (hmCopy hashFn m) k = hmLookup hashFn m k) ∧
    (∀ k v k', k' ≠ k →
      hmLookup hashFn (hmCopy hashFn m) k'
        = hmLookup hashFn (hmInsert hashFn m k v) k') ∧
    (∀ k k' m', k' ≠ k → hmRemove hashFn m k = some m' →
      hmLookup hashFn (hmCopy hashFn m) k' = hmLookup hashFn m' k') ∧
    (∀ k v k', k' ≠ k →
      hmLookup hashFn (hmInsert hashFn (hmCopy hashFn m) k v) k'
        = hmLookup hashFn m k') := by
  refine ⟨size_hmCopy hashFn m, hmLookup_hmCopy hashFn hwf, ?_, ?_, ?_⟩
  · intro k v k' hne
    rw [hmLookup_hmInsert_ne hashFn hne v, hmLookup_hmCopy hashFn hwf k']
  · intro k k' m' hne hr
    rw [hmLookup_hmRemove_ne hashFn hne hr, hmLookup_hmCopy hashFn hwf k']
  · intro k v k' hne
    rw [hmLookup_hmInsert_ne hashFn hne v, hmLookup_hmCopy hashFn hwf k']

theorem copy_independence_witness :
    WF (fun n => n)
      (hmInsert (fun n => n) (hmInsert (fun n => n) (mkHashMap 3) 1 10) 2 20)
    ∧ (hmCopy (fun n => n)
        (hmInsert (fun n => n) (hmInsert (fun n => n) (mkHashMap 3) 1 10) 2 20)).size
      = (hmInsert (fun n => n) (hmInsert (fun n => n) (mkHashMap 3) 1 10) 2 20).size
    ∧ hmLookup (fun n => n)
        (hmCopy (fun n => n)
          (hmInsert (fun n => n) (hmInsert (fun n => n) (mkHashMap 3) 1 10) 2 20)) 1
      = hmLookup (fun n => n)
          (hmInsert (fun n => n) (hmInsert (fun n => n) (mkHashMap 3) 1 10) 2 20) 1
    ∧ hmLookup (fun n => n)
        (hmCopy (fun n => n)
          (hmInsert (fun n => n) (hmInsert (fun n => n) (mkHashMap 3) 1 10) 2 20)) 1
      = hmLookup (fun n => n)
          (hmInsert (fun n => n)
            (hmInsert (fun n => n) (hmInsert (fun n => n) (mkHashMap 3) 1 10) 2 20) 2 99) 1 :=
  ⟨by decide,
    (copy_independence (fun n => n)
      (hmInsert (fun n => n) (hmInsert (fun n => n) (mkHashMap 3) 1 10) 2 20)
      (by decide)).1,
    (copy_independence (fun n => n)
      (hmInsert (fun n => n) (hmInsert (fun n => n) (mkHashMap 3) 1 10) 2 20)
      (by decide)).2.1 1,
    (copy_independence (fun n => n)
      (hmInsert (fun n => n) (hmInsert (fun n => n) (mkHashMap 3) 1 10) 2 20)
      (by decide)).2.2.1 2 99 1 (by decide)⟩

/-- C9: counterexample for `src/hashmap.h`'s `Iterator`: on the reachable
capacity-2 table holding the single entry (1, 10) in bucket 1 (hash
functor the identity), traversing from `begin()` visits that entry
twice before reaching `end()` — `begin()` leaves `_index` at its
default 0 although `_current` points into bucket 1, so the first
advance rescans from index 1 and finds bucket 1 again.
`HashMapIter::first()` of `src/unnamed/part_000` visits each stored
pair exactly once in bucket order, as the claim states (see
`iterFirst_complete` for the general statement). -/
theorem iterator_begin_revisits_bucket :
    iterToList (hmInsert (fun n => n) (mkHashMap 2) 1 10)
      (iterBegin (hmInsert (fun n => n) (mkHashMap 2) 1 10))
      = [⟨1, 10⟩, ⟨1, 10⟩] ∧
    (hmInsert (fun n => n) (mkHashMap 2) 1 10).table.flatten = [⟨1, 10⟩] ∧
    iterToList (hmInsert (fun n => n) (mkHashMap 2) 1 10)
      (iterFirst (hmInsert (fun n => n) (mkHashMap 2) 1 10))
      = [⟨1, 10⟩] := by
  refine ⟨?_, ?_, ?_⟩ <;>
    simp [iterToList, iterBegin, iterFirst, scanFrom, hmInsert, mkHashMap,
      getBucket, hashIdx, iterNext, insertChain]

end Hashmap
